import Mathlib

/-!
Shallow embedding of `src/soundscheduler.py` (the sound-operator scheduling
core: `Operators`, `sound_shifts`, `sound_scheduler`, `choices`) together
with proofs about the claims of the specification.

Modelling conventions:
* Dates are proleptic-Gregorian ordinals (`ℕ`), the representation
  `datetime.date.toordinal` uses; the `YYYY-MM-DD` strings the source keys
  exceptions by are in bijection with these ordinals.
* Python dicts are association lists with first-match lookup; `defaultdict`
  read access and `try/except KeyError` lookups both become a lookup with
  default `[]`.
* Building a Python `set` from a list is modelled by a deterministic
  duplicate-dropping function (`pyset`); CPython leaves set iteration order
  unspecified, so any fixed order is a sound model of the properties proved
  here (membership, distinctness, counts).
* `random.random()` is modelled by an oracle `draws : ℕ → ℚ` supplying one
  uniform draw per loop iteration.
* Fallible operations return `Except SchedError`; the Python exceptions the
  code can actually raise in this fragment are `IndexError` (empty or
  overrun list indexing inside `choices`), `ValueError` (`min` of an empty
  collection) and `ZeroDivisionError`.
-/

/-- First-match association-list lookup with default `[]`. Models both the
`defaultdict(list)` read `operators.availability[shift]` (line 142) and the
`try/except KeyError` lookup of `time_data.shifts[weekday]` (lines 114-119). -/
def lookupD : List (String × List String) → String → List String
  | [], _ => []
  | p :: ps, s => if p.1 = s then p.2 else lookupD ps s

/-- Counter read access: value stored at a key, `0` when the key is absent
(Python `Counter.__getitem__`, used at line 151). -/
def cntGet : List (String × ℕ) → String → ℕ
  | [], _ => 0
  | p :: ps, s => if p.1 = s then p.2 else cntGet ps s

/-- Lookup of the exception set recorded for a `(date, shift)` key
(`k in operators.exceptions` / `operators.exceptions[k]`, lines 145-146). -/
def excGet : List ((ℕ × String) × List String) → ℕ × String → Option (List String)
  | [], _ => none
  | p :: ps, k => if p.1 = k then some p.2 else excGet ps k

/-- Deterministic model of building a Python `set` from a list: duplicates
are dropped, keeping the first occurrence. CPython does not specify set
iteration order, so a fixed order is a sound model for the membership and
cardinality facts proved here. -/
def pyset {α : Type} [DecidableEq α] : List α → List α
  | [] => []
  | x :: xs => x :: (pyset xs).filter (fun y => decide (y ≠ x))

/-- Model of `list(set(l) - set(r))` (lines 146-147 and line 150). -/
def setDiff (l r : List String) : List String :=
  (pyset l).filter (fun x => decide (x ∉ r))

/-- Counter increment by one: `counts.update((name,))` (line 160); folding it
over a list also models the `Counter(list)` constructor (line 138). -/
def bump : List (String × ℕ) → String → List (String × ℕ)
  | [], n => [(n, 1)]
  | p :: ps, n => if p.1 = n then (p.1, p.2 + 1) :: ps else p :: bump ps n

/-- `Counter(operators.names)` (line 138): multiplicity of each name, keys in
first-occurrence order. -/
def counterOf (l : List String) : List (String × ℕ) := l.foldl bump []

/-- In-place `rel_weights[name] *= 10` on a Counter (line 164): updates the
entry when the key is present, otherwise inserts the Counter default `0`
multiplied by `10`. -/
def mul10 : List (String × ℕ) → String → List (String × ℕ)
  | [], n => [(n, 0)]
  | p :: ps, n => if p.1 = n then (p.1, p.2 * 10) :: ps else p :: mul10 ps n

/-- Python `min(iterable)` (line 166): `none` on an empty iterable models the
`ValueError` the source would raise there. -/
def listMin : List ℕ → Option ℕ
  | [] => none
  | x :: xs => some (xs.foldl Nat.min x)

/-- Helper for `accumulate`: running partial sums starting from `acc`. -/
def accAux (acc : ℕ) : List ℕ → List ℕ
  | [] => []
  | w :: ws => (acc + w) :: accAux (acc + w) ws

/-- `itertools.accumulate` on natural-number weights (line 185). -/
def accumulate (l : List ℕ) : List ℕ := accAux 0 l

/-- Lines 177-188. `u` models the value of `r.random()`, a draw in `[0, 1)`.
`bisect.bisect(cum_weights, x)` with `x = u * total` on the (always
nondecreasing) cumulative-sum list is the number of entries `c ≤ x`; since
`u.den > 0`, the rational comparison `(c : ℚ) ≤ u * total` is evaluated as
the exact integer comparison `c * u.den ≤ u.num * total`. `none` models the
`IndexError` raised either by `cum_weights[-1]` on an empty list or by
`population[ix]` when `ix` is out of range. -/
def choices (population : List String) (rel_weights : List ℕ) (u : ℚ) : Option String :=
  match (accumulate rel_weights).getLast? with
  | none => none
  | some total =>
    population.get?
      ((accumulate rel_weights).filter
        (fun c => decide ((c : ℤ) * (u.den : ℤ) ≤ u.num * (total : ℤ)))).length

/-- Operator roster: availability (shift → eligible operators), names, and
date-specific exceptions ((date, shift) → excluded operators). -/
structure Operators where
  availability : List (String × List String)
  names : List String
  exceptions : List ((ℕ × String) × List String)
deriving DecidableEq

/-- One step of the `transform_avail` transposition: `d[day].append(name)` on
a `defaultdict(list)` — append to the entry when the key exists, otherwise
create the entry. -/
def addAvail : List (String × List String) → String → String → List (String × List String)
  | [], day, name => [(day, [name])]
  | p :: ps, day, name =>
    if p.1 = day then (p.1, p.2 ++ [name]) :: ps else p :: addAvail ps day name

/-- `Operators.transform_avail` (lines 75-82): transpose the
name → shift-list mapping into a shift → name-list mapping. -/
def transform_avail (old_d : List (String × List String)) : List (String × List String) :=
  old_d.foldl (fun d p => p.2.foldl (fun d2 day => addAvail d2 day p.1) d) []

/-- `Operators.__init__` (lines 22-25): `names` is the key list of the
supplied availability dict, `availability` its transposition. -/
def Operators.init (avail : List (String × List String))
    (exceptions : List ((ℕ × String) × List String)) : Operators :=
  { availability := transform_avail avail
    names := avail.map Prod.fst
    exceptions := exceptions }

/-- `date.strftime('%A')` on an ordinal: ordinal 1 (0001-01-01) is a Monday
in the proleptic Gregorian calendar. -/
def weekdayName (o : ℕ) : String :=
  (["Monday", "Tuesday", "Wednesday", "Thursday", "Friday", "Saturday",
    "Sunday"]).getD ((o - 1) % 7) ""

/-- Schedule definition: inclusive ordinal date range and the
weekday-name → shift-list mapping (namedtuple `TimeData`, line 99). -/
structure TimeData where
  first_date : ℕ
  last_date : ℕ
  shifts : List (String × List String)
deriving DecidableEq

/-- The `dates` helper of `sound_shifts` (lines 104-109):
`range(first_num, last_num + 1)` over ordinals. Empty when the range is
inverted. -/
def datesRange (first last : ℕ) : List ℕ :=
  (List.range (last + 1 - first)).map (fun i => first + i)

/-- `sound_shifts` (lines 101-123): for each date of the range in ascending
order, emit one `(date, shift)` pair per shift configured for that date's
weekday, in configured order; a weekday missing from the mapping contributes
nothing. -/
def sound_shifts (td : TimeData) : List (ℕ × String) :=
  (datesRange td.first_date td.last_date).foldr
    (fun o acc => (lookupD td.shifts (weekdayName o)).map (fun s => (o, s)) ++ acc) []

/-- Diagnostic snapshot (namedtuple, lines 94-95); field names follow the
source: `shift_counts` is the candidate pool, `shift_weights` its weights. -/
structure Diagnostic where
  counts : List (String × ℕ)
  rel_weights : List (String × ℕ)
  shift_counts : List String
  shift_weights : List ℕ
deriving DecidableEq

/-- Errors of the embedded scheduler. `indexError`, `valueError` and
`zeroDivisionError` are the Python exceptions this code fragment can
actually raise. `unknownShift` and `noEligibleOperator` are the error
vocabulary named by the specification; the embedded code never constructs
them — they are present so the corresponding claims are statable. -/
inductive SchedError where
  | indexError
  | valueError
  | zeroDivisionError
  | unknownShift (shift : String)
  | noEligibleOperator (date : ℕ) (shift : String)
deriving DecidableEq

/-- Mutable loop state of `sound_scheduler` (lines 138-140): counters,
relative weights, last assignee, accumulated schedule and diagnostics, and
the index of the next random draw to consume. -/
structure SchedState where
  counts : List (String × ℕ)
  rel_weights : List (String × ℕ)
  last_person : String
  schedule : List (ℕ × String × String)
  diagnostics : List Diagnostic
  idx : ℕ
deriving DecidableEq

/-- Initial loop state (lines 138-140): empty counts, every roster name at
relative weight 1, `last_person = ''`. -/
def initState (ops : Operators) : SchedState :=
  { counts := []
    rel_weights := counterOf ops.names
    last_person := ""
    schedule := []
    diagnostics := []
    idx := 0 }

/-- Candidate pool after the `defaultdict` availability lookup and exception
filtering (lines 142-147). Depends only on the roster and the slot. -/
def poolAfterExc (ops : Operators) (slot : ℕ × String) : List String :=
  match excGet ops.exceptions (slot.1, slot.2) with
  | some e => setDiff (lookupD ops.availability slot.2) e
  | none => lookupD ops.availability slot.2

/-- No-repeat rule (lines 149-150): when the pool has more than one entry,
drop the previous assignee. -/
def noRepeatFilter (pop : List String) (last_person : String) : List String :=
  if 1 < pop.length then setDiff pop [last_person] else pop

/-- Candidate pool a step draws from: availability, then exceptions, then
the no-repeat rule (lines 142-150). -/
def stepPool (ops : Operators) (st : SchedState) (slot : ℕ × String) : List String :=
  noRepeatFilter (poolAfterExc ops slot) st.last_person

/-- Diagnostic snapshot taken at draw time, before the weight update
(lines 153-155). -/
def stepDiag (ops : Operators) (st : SchedState) (slot : ℕ × String) : Diagnostic :=
  { counts := st.counts
    rel_weights := st.rel_weights
    shift_counts := stepPool ops st slot
    shift_weights := (stepPool ops st slot).map (cntGet st.rel_weights) }

/-- Weight update after a draw (lines 162-168): multiply every roster name
except the selected one by 10, then floor-divide every entry by the minimum
value. `valueError` models `min` of an empty Counter, `zeroDivisionError`
division by a zero minimum. -/
def weightsUpdate (names : List String) (sound_person : String)
    (rw : List (String × ℕ)) : Except SchedError (List (String × ℕ)) :=
  let rw1 := ((pyset names).filter (fun n => decide (n ≠ sound_person))).foldl mul10 rw
  match listMin (rw1.map Prod.snd) with
  | none => Except.error SchedError.valueError
  | some lo =>
    if lo = 0 then Except.error SchedError.zeroDivisionError
    else Except.ok (rw1.map (fun p => (p.1, p.2 / lo)))

/-- Body of the `sound_scheduler` loop for one `(date, shift)` slot
(lines 141-172). -/
def schedStep (ops : Operators) (draws : ℕ → ℚ) (st : SchedState) (slot : ℕ × String) :
    Except SchedError SchedState :=
  match choices (stepPool ops st slot)
      ((stepPool ops st slot).map (cntGet st.rel_weights)) (draws st.idx) with
  | none => Except.error SchedError.indexError
  | some sound_person =>
    match weightsUpdate ops.names sound_person st.rel_weights with
    | Except.error e => Except.error e
    | Except.ok rw2 =>
      Except.ok
        { counts := bump st.counts sound_person
          rel_weights := rw2
          last_person := sound_person
          schedule := st.schedule ++ [(slot.1, slot.2, sound_person)]
          diagnostics := st.diagnostics ++ [stepDiag ops st slot]
          idx := st.idx + 1 }

/-- The `for date, shift in sound_shifts(time_data)` loop (line 141): run
the step over every slot; a raised exception aborts the run. -/
def runFold (ops : Operators) (draws : ℕ → ℚ) :
    SchedState → List (ℕ × String) → Except SchedError SchedState
  | st, [] => Except.ok st
  | st, slot :: rest =>
    match schedStep ops draws st slot with
    | Except.error e => Except.error e
    | Except.ok st2 => runFold ops draws st2 rest

/-- Full run of the scheduling loop from the initial state. -/
def schedRun (ops : Operators) (td : TimeData) (draws : ℕ → ℚ) :
    Except SchedError SchedState :=
  runFold ops draws (initState ops) (sound_shifts td)

/-- `sound_scheduler` (lines 125-175): returns
`((counts, diagnostics), schedule)`. -/
def sound_scheduler (ops : Operators) (td : TimeData) (draws : ℕ → ℚ) :
    Except SchedError
      ((List (String × ℕ) × List Diagnostic) × List (ℕ × String × String)) :=
  match schedRun ops td draws with
  | Except.error e => Except.error e
  | Except.ok st => Except.ok ((st.counts, st.diagnostics), st.schedule)

/-- One operator table of the TOML configuration: name, available shifts,
and exception entries, either `[date, shift]` or a whole-day `[date]`. -/
structure OpEntry where
  name : String
  shifts : List String
  exceptions : List (ℕ × Option String)
deriving DecidableEq

/-- `read_exceptions` (lines 33-61): `[date, shift]` entries stay as they
are; a whole-day `[date]` entry expands to every shift configured for that
date's weekday. (The source would raise `KeyError` when a whole-day date's
weekday has no configured shifts; no claim exercises that path and it is
modelled as an empty expansion.) -/
def read_exceptions (shiftsCfg : List (String × List String)) (op : OpEntry) :
    List (ℕ × String) :=
  op.exceptions.foldr
    (fun e acc =>
      (match e.2 with
       | some s => [(e.1, s)]
       | none => (lookupD shiftsCfg (weekdayName e.1)).map (fun s => (e.1, s))) ++ acc) []

/-- `e[exception].add(name)` on a `defaultdict(set)` (line 71). -/
def addExc : List ((ℕ × String) × List String) → ℕ × String → String →
    List ((ℕ × String) × List String)
  | [], k, name => [(k, [name])]
  | p :: ps, k, name =>
    if p.1 = k then (p.1, if name ∈ p.2 then p.2 else p.2 ++ [name]) :: ps
    else p :: addExc ps k name

/-- Python dict assignment `d[name] = shifts` (line 67): overwrite the entry
when the key exists, otherwise append it. -/
def dictSet : List (String × List String) → String → List String →
    List (String × List String)
  | [], k, v => [(k, v)]
  | p :: ps, k, v => if p.1 = k then (p.1, v) :: ps else p :: dictSet ps k v

/-- `Operators.fromconfig` (lines 29-73): record an operator's availability
only when its shifts list is non-empty (`if shifts:`); collect exception
entries for every operator. -/
def fromconfig (arr : List OpEntry) (shiftsCfg : List (String × List String)) :
    Operators :=
  let d := arr.foldl
    (fun d op => if op.shifts = [] then d else dictSet d op.name op.shifts) []
  let e := arr.foldl
    (fun e op => (read_exceptions shiftsCfg op).foldl
      (fun e2 k => addExc e2 k op.name) e) []
  Operators.init d e

/-- Adjacent pairs of a list: `(l[i], l[i+1])` for every consecutive `i`. -/
def adjPairs {α : Type} : List α → List (α × α)
  | a :: b :: rest => (a, b) :: adjPairs (b :: rest)
  | _ => []

/-- Weight-state invariant of a run: the Counter keys are exactly the roster
names (without duplicates), every weight is a positive integer, diagnostics
snapshots all carry positive weights, every snapshot after the first — i.e.
every state immediately after a renormalization — has minimum weight exactly
1, and so does the current state once a draw has happened. -/
def WInv (names : List String) (st : SchedState) : Prop :=
  ((st.rel_weights.map Prod.fst).Nodup ∧
    ∀ a, a ∈ st.rel_weights.map Prod.fst ↔ a ∈ names) ∧
  (∀ p ∈ st.rel_weights, 1 ≤ p.2) ∧
  st.diagnostics.length = st.schedule.length ∧
  (∀ d ∈ st.diagnostics, ∀ p ∈ d.rel_weights, 1 ≤ p.2) ∧
  (st.schedule ≠ [] → listMin (st.rel_weights.map Prod.snd) = some 1) ∧
  (∀ d ∈ st.diagnostics.drop 1, listMin (d.rel_weights.map Prod.snd) = some 1)

/-- No-repeat invariant of a run: `last_person` is the assignee of the last
emitted row, and adjacent rows differ whenever the later row's
exception-filtered pool has at least two distinct candidates. -/
def NRInv (ops : Operators) (st : SchedState) : Prop :=
  (∀ r, st.schedule.getLast? = some r → r.2.2 = st.last_person) ∧
  (∀ pr ∈ adjPairs st.schedule,
    2 ≤ (pyset (poolAfterExc ops (pr.2.1, pr.2.2.1))).length →
      pr.2.2.2 ≠ pr.1.2.2)

/-- Example configuration: two available operators and one operator with an
empty shifts list. -/
def exArr : List OpEntry :=
  [⟨"alice", ["morning"], []⟩, ⟨"bob", ["morning"], []⟩, ⟨"carol", [], []⟩]

/-- Example weekday → shift-list mapping: one Monday shift. -/
def exCfgShifts : List (String × List String) := [("Monday", ["morning"])]

/-- Example roster built from the configuration. -/
def exOps : Operators := fromconfig exArr exCfgShifts

/-- Example date range covering the Mondays at ordinals 8 and 15. -/
def exTd : TimeData := ⟨8, 15, exCfgShifts⟩

/-- Example draw oracle: always draw 0. -/
def exDraws : ℕ → ℚ := fun _ => 0

/-- A syntactically different draw oracle that is pointwise equal to
`exDraws`. -/
def exDraws2 : ℕ → ℚ := fun n => 0 * (n : ℚ)

/-- Final state of the example run (verified below against `schedRun`). -/
def exSt : SchedState :=
  { counts := [("alice", 1), ("bob", 1)]
    rel_weights := [("alice", 1), ("bob", 1)]
    last_person := "bob"
    schedule := [(8, "morning", "alice"), (15, "morning", "bob")]
    diagnostics :=
      [⟨[], [("alice", 1), ("bob", 1)], ["alice", "bob"], [1, 1]⟩,
       ⟨[("alice", 1)], [("alice", 1), ("bob", 10)], ["bob"], [10]⟩]
    idx := 2 }

/-- State of the example run after its first step (verified below against
`schedStep`). -/
def exSt1 : SchedState :=
  { counts := [("alice", 1)]
    rel_weights := [("alice", 1), ("bob", 10)]
    last_person := "alice"
    schedule := [(8, "morning", "alice")]
    diagnostics := [⟨[], [("alice", 1), ("bob", 1)], ["alice", "bob"], [1, 1]⟩]
    idx := 1 }

/-- Example roster with a recorded exception excluding alice from the
Monday-morning slot at ordinal 8. -/
def exEOps : Operators :=
  Operators.init [("alice", ["morning"]), ("bob", ["morning"])]
    [((8, "morning"), ["alice"])]

/-- Single-Monday range for the exception example. -/
def exETd : TimeData := ⟨8, 8, [("Monday", ["morning"])]⟩

/-- Final state of the exception example run (verified below). -/
def exESt : SchedState :=
  { counts := [("bob", 1)]
    rel_weights := [("alice", 10), ("bob", 1)]
    last_person := "bob"
    schedule := [(8, "morning", "bob")]
    diagnostics := [⟨[], [("alice", 1), ("bob", 1)], ["bob"], [1]⟩]
    idx := 1 }

/-- Roster whose single operator is excepted from the only slot: the
candidate pool for that slot is empty after filtering. -/
def exC3ops : Operators :=
  Operators.init [("alice", ["morning"])] [((8, "morning"), ["alice"])]

/-- Single-Monday range for the empty-pool example. -/
def exC3td : TimeData := ⟨8, 8, [("Monday", ["morning"])]⟩

/-- Roster whose availability mapping has no entry for the calendar's
"evening" shift. -/
def exC4ops : Operators := Operators.init [("alice", ["morning"])] []

/-- Single-Monday range whose configured shift is absent from the roster's
availability mapping. -/
def exC4td : TimeData := ⟨8, 8, [("Monday", ["evening"])]⟩

/-- Inverted date range (first_date > last_date). -/
def exInvTd : TimeData := ⟨9, 8, [("Monday", ["morning"])]⟩

theorem mem_pyset {α : Type} [DecidableEq α] (l : List α) (a : α) :
    a ∈ pyset l ↔ a ∈ l := by
  induction l with
  | nil => simp [pyset]
  | cons x xs ih =>
    simp only [pyset, List.mem_cons, List.mem_filter, decide_eq_true_eq]
    constructor
    · rintro (rfl | ⟨h1, _⟩)
      · exact Or.inl rfl
      · exact Or.inr (ih.1 h1)
    · rintro (rfl | h)
      · exact Or.inl rfl
      · by_cases hax : a = x
        · exact Or.inl hax
        · exact Or.inr ⟨ih.2 h, hax⟩

theorem nodup_pyset {α : Type} [DecidableEq α] (l : List α) : (pyset l).Nodup := by
  induction l with
  | nil => simp [pyset]
  | cons x xs ih =>
    simp only [pyset, List.nodup_cons]
    refine ⟨?_, ih.filter _⟩
    intro hx
    rcases List.mem_filter.1 hx with ⟨_, h2⟩
    simp at h2

theorem length_pyset_le {α : Type} [DecidableEq α] (l : List α) :
    (pyset l).length ≤ l.length := by
  induction l with
  | nil => simp [pyset]
  | cons x xs ih =>
    simp only [pyset, List.length_cons]
    exact Nat.succ_le_succ (le_trans (List.length_filter_le _ _) ih)

theorem mem_setDiff (l r : List String) (x : String) :
    x ∈ setDiff l r ↔ x ∈ l ∧ x ∉ r := by
  simp [setDiff, List.mem_filter, mem_pyset]

theorem choices_mem (pop : List String) (w : List ℕ) (u : ℚ) (sp : String)
    (h : choices pop w u = some sp) : sp ∈ pop := by
  unfold choices at h
  split at h
  · exact absurd h (by simp)
  · exact List.get?_mem h

theorem cntGet_mul10_self (rw : List (String × ℕ)) (n : String) :
    cntGet (mul10 rw n) n = cntGet rw n * 10 := by
  induction rw with
  | nil => simp [mul10, cntGet]
  | cons p ps ih =>
    by_cases hpn : p.1 = n
    · simp [mul10, cntGet, hpn]
    · simp [mul10, cntGet, hpn, ih]

theorem cntGet_mul10_ne (rw : List (String × ℕ)) (n m : String) (h : m ≠ n) :
    cntGet (mul10 rw n) m = cntGet rw m := by
  induction rw with
  | nil => simp [mul10, cntGet, Ne.symm h]
  | cons p ps ih =>
    by_cases hpn : p.1 = n
    · simp [mul10, cntGet, hpn, Ne.symm h]
    · by_cases hpm : p.1 = m
      · simp [mul10, cntGet, hpn, hpm, h]
      · simp [mul10, cntGet, hpn, hpm, ih]

theorem keys_mul10 (rw : List (String × ℕ)) (n : String)
    (h : n ∈ rw.map Prod.fst) : (mul10 rw n).map Prod.fst = rw.map Prod.fst := by
  induction rw with
  | nil => simp at h
  | cons p ps ih =>
    by_cases hpn : p.1 = n
    · simp [mul10, hpn]
    · simp only [List.map_cons] at h
      rcases List.mem_cons.1 h with h1 | h1
      · exact absurd h1.symm hpn
      · simp [mul10, hpn, ih h1]

theorem keys_foldl_mul10 (l : List String) :
    ∀ rw : List (String × ℕ), (∀ a ∈ l, a ∈ rw.map Prod.fst) →
      (l.foldl mul10 rw).map Prod.fst = rw.map Prod.fst := by
  induction l with
  | nil => intro rw _; rfl
  | cons a l ih =>
    intro rw hall
    have ha : a ∈ rw.map Prod.fst := hall a (List.mem_cons_self a l)
    have hk := keys_mul10 rw a ha
    simp only [List.foldl_cons]
    rw [ih (mul10 rw a) (fun b hb => hk ▸ hall b (List.mem_cons_of_mem a hb)), hk]

theorem cntGet_foldl_mul10 (l : List String) (hnd : l.Nodup) :
    ∀ (rw : List (String × ℕ)) (m : String),
      cntGet (l.foldl mul10 rw) m =
        if m ∈ l then cntGet rw m * 10 else cntGet rw m := by
  induction l with
  | nil => intro rw m; simp
  | cons a l ih =>
    intro rw m
    rcases List.nodup_cons.1 hnd with ⟨hna, hndl⟩
    simp only [List.foldl_cons]
    by_cases hma : m = a
    · subst hma
      rw [ih hndl (mul10 rw m) m]
      simp [hna, cntGet_mul10_self]
    · rw [ih hndl (mul10 rw a) m, cntGet_mul10_ne rw a m hma]
      by_cases hml : m ∈ l <;> simp [hml, hma]

theorem cntGet_map_div (rw : List (String × ℕ)) (lo : ℕ) (m : String)
    (h : m ∈ rw.map Prod.fst) :
    cntGet (rw.map (fun p => (p.1, p.2 / lo))) m = cntGet rw m / lo := by
  induction rw with
  | nil => simp at h
  | cons p ps ih =>
    by_cases hpm : p.1 = m
    · simp [cntGet, hpm]
    · simp only [List.map_cons] at h
      rcases List.mem_cons.1 h with h1 | h1
      · exact absurd h1.symm hpm
      · simp [cntGet, hpm, ih h1]

theorem keys_map_div (rw : List (String × ℕ)) (lo : ℕ) :
    (rw.map (fun p => (p.1, p.2 / lo))).map Prod.fst = rw.map Prod.fst := by
  induction rw with
  | nil => rfl
  | cons p ps ih => simp [ih]

theorem snd_eq_cntGet (rw : List (String × ℕ)) (hnd : (rw.map Prod.fst).Nodup) :
    ∀ p ∈ rw, p.2 = cntGet rw p.1 := by
  induction rw with
  | nil => intro p hp; simp at hp
  | cons q ps ih =>
    intro p hp
    simp only [List.map_cons, List.nodup_cons] at hnd
    rcases List.mem_cons.1 hp with rfl | h1
    · simp [cntGet]
    · have hq : ¬ q.1 = p.1 := by
        intro hh
        exact hnd.1 (hh ▸ List.mem_map_of_mem Prod.fst h1)
      simp [cntGet, hq, ih hnd.2 p h1]

theorem mem_of_mem_keys (rw : List (String × ℕ)) (n : String)
    (h : n ∈ rw.map Prod.fst) : (n, cntGet rw n) ∈ rw := by
  induction rw with
  | nil => simp at h
  | cons p ps ih =>
    by_cases hpn : p.1 = n
    · subst hpn
      simp [cntGet]
    · simp only [List.map_cons] at h
      rcases List.mem_cons.1 h with h1 | h1
      · exact absurd h1.symm hpn
      · simp only [cntGet, hpn, if_false]
        exact List.mem_cons_of_mem p (ih h1)

theorem keys_bump_mem (c : List (String × ℕ)) (n a : String) :
    a ∈ (bump c n).map Prod.fst ↔ a ∈ c.map Prod.fst ∨ a = n := by
  induction c with
  | nil => simp [bump]
  | cons p ps ih =>
    by_cases hpn : p.1 = n
    · simp only [bump, if_pos hpn, List.map_cons, List.mem_cons]
      constructor
      · exact fun h => Or.inl h
      · rintro (h | h)
        · exact h
        · exact Or.inl (h.trans hpn.symm)
    · simp only [bump, if_neg hpn, List.map_cons, List.mem_cons, ih]
      tauto

theorem keys_bump_nodup (c : List (String × ℕ)) (n : String)
    (h : (c.map Prod.fst).Nodup) : ((bump c n).map Prod.fst).Nodup := by
  induction c with
  | nil => simp [bump]
  | cons p ps ih =>
    simp only [List.map_cons, List.nodup_cons] at h
    by_cases hpn : p.1 = n
    · simp only [bump, if_pos hpn, List.map_cons, List.nodup_cons]
      exact h
    · simp only [bump, if_neg hpn, List.map_cons, List.nodup_cons]
      refine ⟨?_, ih h.2⟩
      rw [keys_bump_mem]
      rintro (hh | hh)
      · exact h.1 hh
      · exact hpn hh

theorem bump_val_ge (c : List (String × ℕ)) (n : String)
    (h : ∀ p ∈ c, 1 ≤ p.2) : ∀ p ∈ bump c n, 1 ≤ p.2 := by
  induction c with
  | nil => intro p hp; simp [bump] at hp; simp [hp]
  | cons q ps ih =>
    intro p hp
    by_cases hqn : q.1 = n
    · simp only [bump, if_pos hqn] at hp
      rcases List.mem_cons.1 hp with rfl | h1
      · have := h q (List.mem_cons_self q ps)
        omega
      · exact h p (List.mem_cons_of_mem q h1)
    · simp only [bump, if_neg hqn] at hp
      rcases List.mem_cons.1 hp with rfl | h1
      · exact h p (List.mem_cons_self p ps)
      · exact ih (fun r hr => h r (List.mem_cons_of_mem q hr)) p h1

theorem counterOf_keys_mem (l : List String) (a : String) :
    a ∈ (counterOf l).map Prod.fst ↔ a ∈ l := by
  suffices hgen : ∀ c : List (String × ℕ),
      a ∈ (l.foldl bump c).map Prod.fst ↔ a ∈ c.map Prod.fst ∨ a ∈ l by
    have := hgen []
    simpa [counterOf] using this
  induction l with
  | nil => intro c; simp
  | cons b l ih =>
    intro c
    simp only [List.foldl_cons, ih (bump c b), keys_bump_mem, List.mem_cons]
    tauto

theorem counterOf_keys_nodup (l : List String) :
    ((counterOf l).map Prod.fst).Nodup := by
  suffices hgen : ∀ c : List (String × ℕ), (c.map Prod.fst).Nodup →
      ((l.foldl bump c).map Prod.fst).Nodup by
    exact hgen [] (by simp)
  induction l with
  | nil => intro c hc; exact hc
  | cons b l ih =>
    intro c hc
    exact ih (bump c b) (keys_bump_nodup c b hc)

theorem counterOf_val_ge (l : List String) : ∀ p ∈ counterOf l, 1 ≤ p.2 := by
  suffices hgen : ∀ c : List (String × ℕ), (∀ p ∈ c, 1 ≤ p.2) →
      ∀ p ∈ l.foldl bump c, 1 ≤ p.2 by
    exact hgen [] (by simp)
  induction l with
  | nil => intro c hc; exact hc
  | cons b l ih =>
    intro c hc
    exact ih (bump c b) (bump_val_ge c b hc)

theorem bump_not_mem (c : List (String × ℕ)) (n : String)
    (h : n ∉ c.map Prod.fst) : bump c n = c ++ [(n, 1)] := by
  induction c with
  | nil => rfl
  | cons p ps ih =>
    simp only [List.map_cons, List.mem_cons] at h
    push_neg at h
    have hpn : ¬ p.1 = n := fun hh => h.1 hh.symm
    simp only [bump, if_neg hpn, List.cons_append]
    rw [ih h.2]

theorem counterOf_nodup_val (l : List String) (hnd : l.Nodup) :
    ∀ p ∈ counterOf l, p.2 = 1 := by
  suffices hgen : ∀ c : List (String × ℕ), (∀ p ∈ c, p.2 = 1) →
      (∀ a ∈ l, a ∉ c.map Prod.fst) → ∀ p ∈ l.foldl bump c, p.2 = 1 by
    exact hgen [] (by simp) (by simp)
  induction l with
  | nil => intro c hc _; exact hc
  | cons b l ih =>
    intro c hc hdis
    rcases List.nodup_cons.1 hnd with ⟨hbl, hndl⟩
    have hb : b ∉ c.map Prod.fst := hdis b (List.mem_cons_self b l)
    refine ih hndl (bump c b) ?_ ?_
    · rw [bump_not_mem c b hb]
      intro p hp
      rcases List.mem_append.1 hp with h1 | h1
      · exact hc p h1
      · simp at h1
        simp [h1]
    · intro a ha
      rw [keys_bump_mem]
      rintro (hh | hh)
      · exact hdis a (List.mem_cons_of_mem b ha) hh
      · exact hbl (hh ▸ ha)

theorem foldl_min_le_start (xs : List ℕ) : ∀ x : ℕ, xs.foldl Nat.min x ≤ x := by
  induction xs with
  | nil => intro x; exact le_refl x
  | cons a xs ih =>
    intro x
    exact le_trans (ih (Nat.min x a)) (Nat.min_le_left x a)

theorem foldl_min_mem (xs : List ℕ) :
    ∀ x : ℕ, xs.foldl Nat.min x = x ∨ xs.foldl Nat.min x ∈ xs := by
  induction xs with
  | nil => intro x; exact Or.inl rfl
  | cons a xs ih =>
    intro x
    simp only [List.foldl_cons]
    rcases ih (Nat.min x a) with h | h
    · rw [h]
      by_cases hle : x ≤ a
      · exact Or.inl (Nat.min_eq_left hle)
      · have hr : Nat.min x a = a := Nat.min_eq_right (Nat.le_of_not_le hle)
        rw [hr]
        exact Or.inr (List.mem_cons_self a xs)
    · exact Or.inr (List.mem_cons_of_mem a h)

theorem foldl_min_le_mem (xs : List ℕ) :
    ∀ (x b : ℕ), b ∈ xs → xs.foldl Nat.min x ≤ b := by
  induction xs with
  | nil => intro x b hb; simp at hb
  | cons a xs ih =>
    intro x b hb
    rcases List.mem_cons.1 hb with rfl | h1
    · exact le_trans (foldl_min_le_start xs (Nat.min x b)) (Nat.min_le_right x b)
    · exact ih (Nat.min x a) b h1

theorem listMin_mem (l : List ℕ) (a : ℕ) (h : listMin l = some a) : a ∈ l := by
  cases l with
  | nil => simp [listMin] at h
  | cons x xs =>
    simp only [listMin, Option.some.injEq] at h
    subst h
    rcases foldl_min_mem xs x with h1 | h1
    · rw [h1]; exact List.mem_cons_self x xs
    · exact List.mem_cons_of_mem x h1

theorem listMin_le (l : List ℕ) (a : ℕ) (h : listMin l = some a) :
    ∀ b ∈ l, a ≤ b := by
  cases l with
  | nil => intro b hb; simp at hb
  | cons x xs =>
    simp only [listMin, Option.some.injEq] at h
    subst h
    intro b hb
    rcases List.mem_cons.1 hb with rfl | h1
    · exact foldl_min_le_start xs b
    · exact foldl_min_le_mem xs x b h1

theorem listMin_isSome (l : List ℕ) (h : l ≠ []) : ∃ a, listMin l = some a := by
  cases l with
  | nil => exact absurd rfl h
  | cons x xs => exact ⟨xs.foldl Nat.min x, rfl⟩

theorem listMin_eq_one (l : List ℕ) (h1 : (1 : ℕ) ∈ l) (h2 : ∀ x ∈ l, 1 ≤ x) :
    listMin l = some 1 := by
  obtain ⟨a, ha⟩ := listMin_isSome l (List.ne_nil_of_mem h1)
  have hle : a ≤ 1 := listMin_le l a ha 1 h1
  have hge : 1 ≤ a := h2 a (listMin_mem l a ha)
  rw [ha, Nat.le_antisymm hle hge]

theorem listMin_congr (l1 l2 : List ℕ) (h : ∀ x, x ∈ l1 ↔ x ∈ l2) :
    listMin l1 = listMin l2 := by
  cases hl1 : l1 with
  | nil =>
    cases hl2 : l2 with
    | nil => rfl
    | cons y ys =>
      exact absurd ((h y).2 (hl2 ▸ List.mem_cons_self y ys)) (by simp [hl1])
  | cons x xs =>
    subst hl1
    cases hl2 : l2 with
    | nil =>
      exact absurd ((h x).1 (List.mem_cons_self x xs)) (by simp [hl2])
    | cons y ys =>
      subst hl2
      obtain ⟨a1, ha1⟩ := listMin_isSome (x :: xs) (by simp)
      obtain ⟨a2, ha2⟩ := listMin_isSome (y :: ys) (by simp)
      rw [ha1, ha2]
      have h12 : a1 ≤ a2 :=
        listMin_le _ a1 ha1 a2 ((h a2).2 (listMin_mem _ a2 ha2))
      have h21 : a2 ≤ a1 :=
        listMin_le _ a2 ha2 a1 ((h a1).1 (listMin_mem _ a1 ha1))
      rw [Nat.le_antisymm h12 h21]

theorem lookupD_eq_nil (d : List (String × List String)) (s : String)
    (h : s ∉ d.map Prod.fst) : lookupD d s = [] := by
  induction d with
  | nil => rfl
  | cons p ps ih =>
    simp only [List.map_cons, List.mem_cons] at h
    push_neg at h
    have hps : ¬ p.1 = s := fun hh => h.1 hh.symm
    simp only [lookupD, if_neg hps]
    exact ih h.2

theorem mem_lookupD_addAvail (d : List (String × List String))
    (day name s m : String) (h : m ∈ lookupD (addAvail d day name) s) :
    m ∈ lookupD d s ∨ m = name := by
  induction d with
  | nil =>
    simp only [addAvail, lookupD] at h
    by_cases hds : day = s
    · rw [if_pos hds] at h
      simp at h
      exact Or.inr h
    · rw [if_neg hds] at h
      simp [lookupD] at h
  | cons p ps ih =>
    by_cases hpd : p.1 = day
    · simp only [addAvail, if_pos hpd] at h
      by_cases hps : p.1 = s
      · simp only [lookupD, if_pos hps] at h ⊢
        rcases List.mem_append.1 h with h1 | h1
        · exact Or.inl h1
        · simp at h1
          exact Or.inr h1
      · simp only [lookupD, if_neg hps] at h ⊢
        exact Or.inl h
    · simp only [addAvail, if_neg hpd] at h
      by_cases hps : p.1 = s
      · simp only [lookupD, if_pos hps] at h ⊢
        exact Or.inl h
      · simp only [lookupD, if_neg hps] at h ⊢
        exact ih h

theorem mem_foldl_addAvail (days : List String) (name : String)
    (P : String → Prop) (hname : P name) :
    ∀ d : List (String × List String), (∀ s m, m ∈ lookupD d s → P m) →
      ∀ s m, m ∈ lookupD (days.foldl (fun d2 day => addAvail d2 day name) d) s → P m := by
  induction days with
  | nil => intro d hd; exact hd
  | cons day days ih =>
    intro d hd
    refine ih (addAvail d day name) ?_
    intro s m hm
    rcases mem_lookupD_addAvail d day name s m hm with h1 | h1
    · exact hd s m h1
    · exact h1 ▸ hname

theorem mem_transform_avail (avail : List (String × List String)) (s m : String)
    (h : m ∈ lookupD (transform_avail avail) s) : m ∈ avail.map Prod.fst := by
  suffices hgen : ∀ (l : List (String × List String)) (d : List (String × List String)),
      (∀ s2 m2, m2 ∈ lookupD d s2 → m2 ∈ avail.map Prod.fst) →
      (∀ p ∈ l, p.1 ∈ avail.map Prod.fst) →
      ∀ s2 m2, m2 ∈ lookupD (l.foldl (fun d2 p => p.2.foldl (fun d3 day => addAvail d3 day p.1) d2) d) s2 →
        m2 ∈ avail.map Prod.fst by
    refine hgen avail [] ?_ ?_ s m h
    · intro s2 m2 hm
      simp [lookupD] at hm
    · intro p hp
      exact List.mem_map_of_mem Prod.fst hp
  intro l
  induction l with
  | nil => intro d hd _; exact hd
  | cons q l ih =>
    intro d hd hl
    simp only [List.foldl_cons]
    refine ih (q.2.foldl (fun d3 day => addAvail d3 day q.1) d) ?_ ?_
    · exact mem_foldl_addAvail q.2 q.1 _ (hl q (List.mem_cons_self q l)) d hd
    · intro p hp
      exact hl p (List.mem_cons_of_mem q hp)

theorem mem_keys_dictSet (d : List (String × List String)) (k : String)
    (v : List String) (a : String) (h : a ∈ (dictSet d k v).map Prod.fst) :
    a ∈ d.map Prod.fst ∨ a = k := by
  induction d with
  | nil =>
    simp [dictSet] at h
    exact Or.inr h
  | cons p ps ih =>
    by_cases hpk : p.1 = k
    · simp only [dictSet, if_pos hpk, List.map_cons, List.mem_cons] at h ⊢
      tauto
    · simp only [dictSet, if_neg hpk, List.map_cons, List.mem_cons] at h ⊢
      rcases h with h1 | h1
      · exact Or.inl (Or.inl h1)
      · rcases ih h1 with h2 | h2
        · exact Or.inl (Or.inr h2)
        · exact Or.inr h2

theorem getLast?_append_single {α : Type} (l : List α) (x : α) :
    (l ++ [x]).getLast? = some x := by
  induction l with
  | nil => rfl
  | cons a as ih =>
    cases as with
    | nil => rfl
    | cons b bs => exact ih

theorem mem_drop_one_append {α : Type} (l : List α) (x d : α)
    (h : d ∈ (l ++ [x]).drop 1) : d ∈ l.drop 1 ∨ (d = x ∧ l ≠ []) := by
  cases l with
  | nil => simp at h
  | cons a as =>
    have h2 : d ∈ as ++ [x] := h
    rcases List.mem_append.1 h2 with h1 | h1
    · exact Or.inl h1
    · simp at h1
      exact Or.inr ⟨h1, by simp⟩

theorem adjPairs_append {α : Type} (l : List α) (x : α) (pr : α × α)
    (h : pr ∈ adjPairs (l ++ [x])) :
    pr ∈ adjPairs l ∨ ∃ r, l.getLast? = some r ∧ pr = (r, x) := by
  induction l with
  | nil => simp [adjPairs] at h
  | cons a as ih =>
    cases as with
    | nil =>
      have h2 : pr ∈ [(a, x)] := h
      simp at h2
      exact Or.inr ⟨a, rfl, h2⟩
    | cons b bs =>
      have h2 : pr ∈ (a, b) :: adjPairs ((b :: bs) ++ [x]) := h
      rcases List.mem_cons.1 h2 with h3 | h3
      · exact Or.inl (h3 ▸ List.mem_cons_self (a, b) (adjPairs (b :: bs)))
      · rcases ih h3 with h4 | h4
        · exact Or.inl (List.mem_cons_of_mem (a, b) h4)
        · obtain ⟨r, hr1, hr2⟩ := h4
          exact Or.inr ⟨r, hr1, hr2⟩

theorem weightsUpdate_ok (names : List String) (sp : String)
    (rw rw2 : List (String × ℕ)) (h : weightsUpdate names sp rw = Except.ok rw2) :
    ∃ lo,
      listMin ((((pyset names).filter (fun n => decide (n ≠ sp))).foldl mul10 rw).map
        Prod.snd) = some lo ∧
      lo ≠ 0 ∧
      rw2 = (((pyset names).filter (fun n => decide (n ≠ sp))).foldl mul10 rw).map
        (fun p => (p.1, p.2 / lo)) := by
  simp only [weightsUpdate] at h
  split at h
  · exact absurd h (by simp)
  · rename_i lo hm
    split at h
    · exact absurd h (by simp)
    · rename_i hlo
      simp only [Except.ok.injEq] at h
      exact ⟨lo, hm, hlo, h.symm⟩

theorem schedStep_ok (ops : Operators) (draws : ℕ → ℚ) (st : SchedState)
    (slot : ℕ × String) (st2 : SchedState)
    (h : schedStep ops draws st slot = Except.ok st2) :
    ∃ sp rw2,
      choices (stepPool ops st slot)
        ((stepPool ops st slot).map (cntGet st.rel_weights)) (draws st.idx) = some sp ∧
      weightsUpdate ops.names sp st.rel_weights = Except.ok rw2 ∧
      st2 = { counts := bump st.counts sp
              rel_weights := rw2
              last_person := sp
              schedule := st.schedule ++ [(slot.1, slot.2, sp)]
              diagnostics := st.diagnostics ++ [stepDiag ops st slot]
              idx := st.idx + 1 } := by
  unfold schedStep at h
  split at h
  · exact absurd h (by simp)
  · rename_i sp hc
    split at h
    · exact absurd h (by simp)
    · rename_i rw2 hw
      simp only [Except.ok.injEq] at h
      exact ⟨sp, rw2, hc, hw, h.symm⟩

theorem runFold_inv (ops : Operators) (draws : ℕ → ℚ) (P : SchedState → Prop)
    (hstep : ∀ st slot st2, P st → schedStep ops draws st slot = Except.ok st2 → P st2) :
    ∀ (l : List (ℕ × String)) (st0 st : SchedState),
      P st0 → runFold ops draws st0 l = Except.ok st → P st := by
  intro l
  induction l with
  | nil =>
    intro st0 st h0 hr
    simp only [runFold, Except.ok.injEq] at hr
    exact hr ▸ h0
  | cons slot rest ih =>
    intro st0 st h0 hr
    simp only [runFold] at hr
    split at hr
    · exact absurd hr (by simp)
    · rename_i st1 hs
      exact ih st1 st (hstep st0 slot st1 h0 hs) hr

theorem schedStep_schedule (ops : Operators) (draws : ℕ → ℚ) (st : SchedState)
    (slot : ℕ × String) (st2 : SchedState)
    (h : schedStep ops draws st slot = Except.ok st2) :
    st2.schedule = st.schedule ++ [(slot.1, slot.2, st2.last_person)] := by
  obtain ⟨sp, rw2, _, _, hst2⟩ := schedStep_ok ops draws st slot st2 h
  rw [hst2]

theorem runFold_schedule (ops : Operators) (draws : ℕ → ℚ) :
    ∀ (l : List (ℕ × String)) (st0 st : SchedState),
      runFold ops draws st0 l = Except.ok st →
      st.schedule.map (fun r => (r.1, r.2.1)) =
        st0.schedule.map (fun r => (r.1, r.2.1)) ++ l := by
  intro l
  induction l with
  | nil =>
    intro st0 st hr
    simp only [runFold, Except.ok.injEq] at hr
    rw [← hr]
    simp
  | cons slot rest ih =>
    intro st0 st hr
    simp only [runFold] at hr
    split at hr
    · exact absurd hr (by simp)
    · rename_i st1 hs
      have h1 := ih st1 st hr
      rw [h1, schedStep_schedule ops draws st0 slot st1 hs]
      simp

theorem mem_stepPool (ops : Operators) (st : SchedState) (slot : ℕ × String)
    (a : String) (h : a ∈ stepPool ops st slot) : a ∈ poolAfterExc ops slot := by
  unfold stepPool noRepeatFilter at h
  split at h
  · exact ((mem_setDiff _ _ a).1 h).1
  · exact h

theorem mem_poolAfterExc (ops : Operators) (slot : ℕ × String) (a : String)
    (h : a ∈ poolAfterExc ops slot) : a ∈ lookupD ops.availability slot.2 := by
  unfold poolAfterExc at h
  split at h
  · exact ((mem_setDiff _ _ a).1 h).1
  · exact h

theorem poolAfterExc_not_exc (ops : Operators) (slot : ℕ × String) (E : List String)
    (hexc : excGet ops.exceptions (slot.1, slot.2) = some E) (a : String)
    (h : a ∈ poolAfterExc ops slot) : a ∉ E := by
  unfold poolAfterExc at h
  rw [hexc] at h
  exact ((mem_setDiff _ _ a).1 h).2

theorem schedStep_empty_pool (ops : Operators) (draws : ℕ → ℚ) (st : SchedState)
    (slot : ℕ × String) (h : stepPool ops st slot = []) :
    schedStep ops draws st slot = Except.error SchedError.indexError := by
  unfold schedStep
  rw [h]
  rfl

theorem poolAfterExc_of_avail_nil (ops : Operators) (slot : ℕ × String)
    (h : lookupD ops.availability slot.2 = []) : poolAfterExc ops slot = [] := by
  unfold poolAfterExc
  rw [h]
  split
  · rfl
  · rfl

theorem values_min_congr (names : List String) (rw : List (String × ℕ))
    (hnd : (rw.map Prod.fst).Nodup)
    (hiff : ∀ a, a ∈ rw.map Prod.fst ↔ a ∈ names)
    (f : String → ℕ) (hf : ∀ n ∈ names, cntGet rw n = f n) :
    listMin (rw.map Prod.snd) = listMin (names.map f) := by
  apply listMin_congr
  intro x
  constructor
  · intro hx
    rcases List.mem_map.1 hx with ⟨p, hp, hpx⟩
    have h1 : p.2 = cntGet rw p.1 := snd_eq_cntGet rw hnd p hp
    have h2 : p.1 ∈ names := (hiff p.1).1 (List.mem_map_of_mem Prod.fst hp)
    have h3 : cntGet rw p.1 = f p.1 := hf p.1 h2
    rw [← hpx, h1, h3]
    exact List.mem_map_of_mem f h2
  · intro hx
    rcases List.mem_map.1 hx with ⟨n, hn, hnx⟩
    have h1 : n ∈ rw.map Prod.fst := (hiff n).2 hn
    have h2 : (n, cntGet rw n) ∈ rw := mem_of_mem_keys rw n h1
    rw [← hnx, ← hf n hn]
    exact List.mem_map.2 ⟨(n, cntGet rw n), h2, rfl⟩

theorem weightsUpdate_spec (names : List String) (sp : String)
    (rw rw2 : List (String × ℕ))
    (hnd : (rw.map Prod.fst).Nodup)
    (hiff : ∀ a, a ∈ rw.map Prod.fst ↔ a ∈ names)
    (hval : ∀ p ∈ rw, 1 ≤ p.2)
    (h : weightsUpdate names sp rw = Except.ok rw2) :
    ∃ lo,
      listMin (names.map
        (fun k => if k = sp then cntGet rw k else cntGet rw k * 10)) = some lo ∧
      1 ≤ lo ∧
      (∀ n ∈ names, cntGet rw2 n =
        (if n = sp then cntGet rw n else cntGet rw n * 10) / lo) ∧
      (rw2.map Prod.fst).Nodup ∧
      (∀ a, a ∈ rw2.map Prod.fst ↔ a ∈ names) ∧
      (∀ p ∈ rw2, 1 ≤ p.2) ∧
      listMin (rw2.map Prod.snd) = some 1 := by
  obtain ⟨lo, hm, hlo0, hrw2⟩ := weightsUpdate_ok names sp rw rw2 h
  have hLnd : ((pyset names).filter (fun n => decide (n ≠ sp))).Nodup :=
    (nodup_pyset names).filter _
  have hLsub : ∀ a ∈ (pyset names).filter (fun n => decide (n ≠ sp)),
      a ∈ rw.map Prod.fst := by
    intro a ha
    exact (hiff a).2 ((mem_pyset names a).1 (List.mem_filter.1 ha).1)
  have hLmem : ∀ n ∈ names,
      (n ∈ (pyset names).filter (fun n => decide (n ≠ sp)) ↔ n ≠ sp) := by
    intro n hn
    constructor
    · intro hnl
      have h2 := (List.mem_filter.1 hnl).2
      simpa using h2
    · intro hns
      exact List.mem_filter.2 ⟨(mem_pyset names n).2 hn, by simpa using hns⟩
  have hk1 : (((pyset names).filter (fun n => decide (n ≠ sp))).foldl mul10 rw).map
      Prod.fst = rw.map Prod.fst :=
    keys_foldl_mul10 _ rw hLsub
  have hc1 : ∀ n ∈ names,
      cntGet (((pyset names).filter (fun n => decide (n ≠ sp))).foldl mul10 rw) n =
        (if n = sp then cntGet rw n else cntGet rw n * 10) := by
    intro n hn
    rw [cntGet_foldl_mul10 _ hLnd rw n]
    by_cases hns : n = sp
    · have hnotin : n ∉ (pyset names).filter (fun n => decide (n ≠ sp)) :=
        fun hmem => ((hLmem n hn).1 hmem) hns
      rw [if_neg hnotin, if_pos hns]
    · have hin : n ∈ (pyset names).filter (fun n => decide (n ≠ sp)) :=
        (hLmem n hn).2 hns
      rw [if_pos hin, if_neg hns]
  have hnd1 : ((((pyset names).filter (fun n => decide (n ≠ sp))).foldl mul10 rw).map
      Prod.fst).Nodup := hk1 ▸ hnd
  have hval1 : ∀ p ∈ ((pyset names).filter (fun n => decide (n ≠ sp))).foldl mul10 rw,
      1 ≤ p.2 := by
    intro p hp
    have h1 : p.2 = cntGet _ p.1 := snd_eq_cntGet _ hnd1 p hp
    have hkey : p.1 ∈ rw.map Prod.fst := hk1 ▸ List.mem_map_of_mem Prod.fst hp
    have hn : p.1 ∈ names := (hiff p.1).1 hkey
    have h2 := hc1 p.1 hn
    have h3 : 1 ≤ cntGet rw p.1 := hval (p.1, cntGet rw p.1) (mem_of_mem_keys rw p.1 hkey)
    rw [h1, h2]
    by_cases hns : p.1 = sp
    · simpa [hns] using h3
    · simp only [if_neg hns]
      omega
  have hmin_names : listMin (names.map
      (fun k => if k = sp then cntGet rw k else cntGet rw k * 10)) = some lo := by
    rw [← values_min_congr names _ hnd1 (fun a => hk1 ▸ hiff a) _ hc1]
    exact hm
  have hlo1 : 1 ≤ lo := by
    rcases List.mem_map.1 (listMin_mem _ lo hm) with ⟨p, hp, hpx⟩
    have := hval1 p hp
    omega
  have hc2 : ∀ n ∈ names, cntGet rw2 n =
      (if n = sp then cntGet rw n else cntGet rw n * 10) / lo := by
    intro n hn
    rw [hrw2, cntGet_map_div _ lo n (by rw [hk1]; exact (hiff n).2 hn), hc1 n hn]
  have hk2 : rw2.map Prod.fst = rw.map Prod.fst := by
    rw [hrw2, keys_map_div, hk1]
  have hval2 : ∀ p ∈ rw2, 1 ≤ p.2 := by
    intro p hp
    rw [hrw2] at hp
    rcases List.mem_map.1 hp with ⟨q, hq, hqp⟩
    have hq2 : lo ≤ q.2 := listMin_le _ lo hm q.2 (List.mem_map_of_mem Prod.snd hq)
    rw [← hqp]
    exact (Nat.one_le_div_iff (by omega)).2 hq2
  have hone : (1 : ℕ) ∈ rw2.map Prod.snd := by
    rcases List.mem_map.1 (listMin_mem _ lo hm) with ⟨q, hq, hqlo⟩
    rw [hrw2]
    refine List.mem_map.2 ⟨(q.1, q.2 / lo), List.mem_map_of_mem _ hq, ?_⟩
    show q.2 / lo = 1
    rw [hqlo, Nat.div_self (by omega)]
  have hminrw2 : listMin (rw2.map Prod.snd) = some 1 := by
    refine listMin_eq_one _ hone ?_
    intro x hx
    rcases List.mem_map.1 hx with ⟨p, hp, hpx⟩
    exact hpx ▸ hval2 p hp
  exact ⟨lo, hmin_names, hlo1, hc2, hk2 ▸ hnd, fun a => hk2 ▸ hiff a, hval2, hminrw2⟩

theorem initState_WInv (ops : Operators) : WInv ops.names (initState ops) :=
  ⟨⟨counterOf_keys_nodup ops.names, fun a => counterOf_keys_mem ops.names a⟩,
   counterOf_val_ge ops.names, rfl,
   fun d hd => absurd hd (List.not_mem_nil d),
   fun hne => absurd rfl hne,
   fun d hd => absurd hd (List.not_mem_nil d)⟩

theorem schedStep_WInv (ops : Operators) (draws : ℕ → ℚ) (st : SchedState)
    (slot : ℕ × String) (st2 : SchedState) (hw : WInv ops.names st)
    (hs : schedStep ops draws st slot = Except.ok st2) : WInv ops.names st2 := by
  obtain ⟨sp, rw2, hc, hwu, hst2⟩ := schedStep_ok ops draws st slot st2 hs
  obtain ⟨⟨hnd, hiff⟩, hval, hlen, hdiag, hminsched, hdrop⟩ := hw
  obtain ⟨lo, _, _, _, hnd2, hiff2, hval2, hmin2⟩ :=
    weightsUpdate_spec ops.names sp st.rel_weights rw2 hnd hiff hval hwu
  subst hst2
  refine ⟨⟨hnd2, hiff2⟩, hval2, ?_, ?_, ?_, ?_⟩
  · simp [hlen]
  · intro d hd
    rcases List.mem_append.1 hd with h1 | h1
    · exact hdiag d h1
    · simp only [List.mem_singleton] at h1
      subst h1
      exact hval
  · intro _
    exact hmin2
  · intro d hd
    rcases mem_drop_one_append st.diagnostics (stepDiag ops st slot) d hd with h1 | ⟨h1, h2⟩
    · exact hdrop d h1
    · subst h1
      have hsne : st.schedule ≠ [] := by
        intro hnil
        rw [hnil] at hlen
        simp only [List.length_nil] at hlen
        exact h2 (List.eq_nil_of_length_eq_zero hlen)
      exact hminsched hsne

theorem initState_NRInv (ops : Operators) : NRInv ops (initState ops) :=
  ⟨fun r hr => absurd hr (by simp [initState]),
   fun pr hpr => absurd hpr (List.not_mem_nil pr)⟩

theorem schedStep_NRInv (ops : Operators) (draws : ℕ → ℚ) (st : SchedState)
    (slot : ℕ × String) (st2 : SchedState) (hw : NRInv ops st)
    (hs : schedStep ops draws st slot = Except.ok st2) : NRInv ops st2 := by
  obtain ⟨sp, rw2, hc, hwu, hst2⟩ := schedStep_ok ops draws st slot st2 hs
  obtain ⟨hlast, hadj⟩ := hw
  have hsp : sp ∈ stepPool ops st slot := choices_mem _ _ _ sp hc
  subst hst2
  constructor
  · intro r hr
    rw [getLast?_append_single] at hr
    injection hr with hr2
    subst hr2
    rfl
  · intro pr hpr hcard
    rcases adjPairs_append st.schedule (slot.1, slot.2, sp) pr hpr with h1 | ⟨r, hr1, hr2⟩
    · exact hadj pr h1 hcard
    · subst hr2
      have hrlast : r.2.2 = st.last_person := hlast r hr1
      have hcard2 : 2 ≤ (pyset (poolAfterExc ops slot)).length := hcard
      have hlen2 : 1 < (poolAfterExc ops slot).length := by
        have hle := length_pyset_le (poolAfterExc ops slot)
        omega
      have hpool : stepPool ops st slot =
          setDiff (poolAfterExc ops slot) [st.last_person] := by
        unfold stepPool noRepeatFilter
        rw [if_pos hlen2]
      rw [hpool] at hsp
      have hmem := (mem_setDiff _ _ sp).1 hsp
      have hne : sp ≠ st.last_person := by
        intro hh
        exact hmem.2 (by simp [hh])
      show sp ≠ r.2.2
      rw [hrlast]
      exact hne

/-- C1: after every draw of `sound_scheduler` (one `schedStep`, the loop body
applied at every slot), the weight of every roster operator other than the
just-selected operator (`st2.last_person`) is multiplied by 10 while the
selected operator's weight is unchanged, and then every operator's weight is
floor-divided by the current minimum weight across all operators; the update
covers every name of the roster, not only the candidate pool. The
hypotheses state the run invariants of the weight Counter: its keys are the
roster names without duplicates and its values are positive. -/
theorem weight_update_after_draw (ops : Operators) (draws : ℕ → ℚ)
    (st st2 : SchedState) (slot : ℕ × String)
    (hnd : (st.rel_weights.map Prod.fst).Nodup)
    (hiff : ∀ a, a ∈ st.rel_weights.map Prod.fst ↔ a ∈ ops.names)
    (hval : ∀ p ∈ st.rel_weights, 1 ≤ p.2)
    (hstep : schedStep ops draws st slot = Except.ok st2) :
    ∃ m,
      listMin (ops.names.map (fun k =>
        if k = st2.last_person then cntGet st.rel_weights k
        else cntGet st.rel_weights k * 10)) = some m ∧
      ∀ n ∈ ops.names,
        cntGet st2.rel_weights n =
          (if n = st2.last_person then cntGet st.rel_weights n
           else cntGet st.rel_weights n * 10) / m := by
  obtain ⟨sp, rw2, hc, hwu, hst2⟩ := schedStep_ok ops draws st slot st2 hstep
  obtain ⟨lo, hmin, _, hc2, _, _, _, _⟩ :=
    weightsUpdate_spec ops.names sp st.rel_weights rw2 hnd hiff hval hwu
  have hlp : st2.last_person = sp := by rw [hst2]
  have hrw : st2.rel_weights = rw2 := by rw [hst2]
  rw [hlp, hrw]
  exact ⟨lo, hmin, hc2⟩

/-- C2: in every successful run of the scheduling loop, the weights start at
1 for every operator, every diagnostics snapshot carries positive integer
weights, the final weights are positive integers, and immediately after each
renormalization step the minimum weight across all operators is exactly 1 —
observable both in every snapshot after the first (each records the state
right after the previous step's renormalization) and in the final state once
at least one row has been drawn. -/
theorem rel_weights_positive_min_one (ops : Operators) (td : TimeData)
    (draws : ℕ → ℚ) (st : SchedState) (hnd : ops.names.Nodup)
    (hrun : schedRun ops td draws = Except.ok st) :
    (∀ p ∈ (initState ops).rel_weights, p.2 = 1) ∧
    (∀ d ∈ st.diagnostics, ∀ p ∈ d.rel_weights, 1 ≤ p.2) ∧
    (∀ p ∈ st.rel_weights, 1 ≤ p.2) ∧
    (st.schedule ≠ [] → listMin (st.rel_weights.map Prod.snd) = some 1) ∧
    (∀ d ∈ st.diagnostics.drop 1, listMin (d.rel_weights.map Prod.snd) = some 1) := by
  have hinv : WInv ops.names st :=
    runFold_inv ops draws (WInv ops.names)
      (fun s slot s2 hP hs => schedStep_WInv ops draws s slot s2 hP hs)
      (sound_shifts td) (initState ops) st (initState_WInv ops) hrun
  obtain ⟨_, hval, _, hdiag, hmin, hdrop⟩ := hinv
  exact ⟨counterOf_nodup_val ops.names hnd, hdiag, hval, hmin, hdrop⟩

/-- C5: in every successful run, whenever the exception-filtered candidate
pool of the later slot of two adjacent rows has at least 2 distinct eligible
candidates, the two rows name different operators; and the no-repeat filter
leaves a singleton pool untouched, never shrinking it to empty. -/
theorem no_repeat_rule (ops : Operators) (td : TimeData) (draws : ℕ → ℚ)
    (st : SchedState) (hrun : schedRun ops td draws = Except.ok st) :
    (∀ pr ∈ adjPairs st.schedule,
      2 ≤ (pyset (poolAfterExc ops (pr.2.1, pr.2.2.1))).length →
        pr.2.2.2 ≠ pr.1.2.2) ∧
    (∀ (pop : List String) (last : String), pop.length = 1 →
      noRepeatFilter pop last = pop ∧ noRepeatFilter pop last ≠ []) := by
  constructor
  · have hinv : NRInv ops st :=
      runFold_inv ops draws (NRInv ops)
        (fun s slot s2 hP hs => schedStep_NRInv ops draws s slot s2 hP hs)
        (sound_shifts td) (initState ops) st (initState_NRInv ops) hrun
    exact hinv.2
  · intro pop last h1
    have hnot : ¬ 1 < pop.length := by omega
    unfold noRepeatFilter
    rw [if_neg hnot]
    refine ⟨rfl, ?_⟩
    intro hnil
    rw [hnil] at h1
    simp at h1

/-- C6: in every successful run, a row whose `(date, shift)` slot has a
recorded exception set never names an operator of that set. -/
theorem exceptions_enforced (ops : Operators) (td : TimeData) (draws : ℕ → ℚ)
    (st : SchedState) (hrun : schedRun ops td draws = Except.ok st) :
    ∀ r ∈ st.schedule, ∀ E,
      excGet ops.exceptions (r.1, r.2.1) = some E → r.2.2 ∉ E := by
  refine runFold_inv ops draws
    (fun s => ∀ r ∈ s.schedule, ∀ E,
      excGet ops.exceptions (r.1, r.2.1) = some E → r.2.2 ∉ E)
    ?_ (sound_shifts td) (initState ops) st ?_ hrun
  · intro s slot s2 hP hs
    obtain ⟨sp, rw2, hc, hwu, hst2⟩ := schedStep_ok ops draws s slot s2 hs
    subst hst2
    intro r hr E hE
    rcases List.mem_append.1 hr with h1 | h1
    · exact hP r h1 E hE
    · simp only [List.mem_singleton] at h1
      subst h1
      have hsp : sp ∈ stepPool ops s slot := choices_mem _ _ _ sp hc
      have hpool := mem_stepPool ops s slot sp hsp
      exact poolAfterExc_not_exc ops slot E hE sp hpool
  · intro r hr
    exact absurd hr (List.not_mem_nil r)

/-- C7: a successful run emits exactly one schedule row per `(date, shift)`
pair enumerated by `sound_shifts`, in the same order, so the row count
equals the pair count. -/
theorem one_row_per_slot (ops : Operators) (td : TimeData) (draws : ℕ → ℚ)
    (data : List (String × ℕ) × List Diagnostic)
    (sched : List (ℕ × String × String))
    (hrun : sound_scheduler ops td draws = Except.ok (data, sched)) :
    sched.map (fun r => (r.1, r.2.1)) = sound_shifts td ∧
    sched.length = (sound_shifts td).length := by
  unfold sound_scheduler at hrun
  split at hrun
  · exact absurd hrun (by simp)
  · rename_i st hst
    simp only [Except.ok.injEq, Prod.mk.injEq] at hrun
    obtain ⟨h1, h2⟩ := hrun
    have hmap := runFold_schedule ops draws (sound_shifts td) (initState ops) st hst
    rw [← h2]
    constructor
    · simpa [initState] using hmap
    · have hlen := congrArg List.length hmap
      simpa [initState] using hlen

/-- C8: an inverted range (`first_date > last_date`) produces an empty shift
sequence and the scheduler returns an empty schedule with no error. -/
theorem inverted_range_zero_rows (ops : Operators) (td : TimeData)
    (draws : ℕ → ℚ) (h : td.last_date < td.first_date) :
    sound_shifts td = [] ∧
    sound_scheduler ops td draws = Except.ok (([], []), []) := by
  have hd : datesRange td.first_date td.last_date = [] := by
    unfold datesRange
    have h0 : td.last_date + 1 - td.first_date = 0 := by omega
    rw [h0]
    rfl
  have hs : sound_shifts td = [] := by
    unfold sound_shifts
    rw [hd]
    rfl
  refine ⟨hs, ?_⟩
  unfold sound_scheduler schedRun
  rw [hs]
  rfl

/-- C9: the draw oracle is the only source of nondeterminism — two runs on
identical inputs with pointwise-equal draw sequences produce identical
results, schedules included. -/
theorem reproducible_given_draws (ops : Operators) (td : TimeData)
    (d1 d2 : ℕ → ℚ) (h : ∀ n, d1 n = d2 n) :
    sound_scheduler ops td d1 = sound_scheduler ops td d2 := by
  have hd : d1 = d2 := funext h
  rw [hd]

theorem foldl_dictSet_not_mem (n : String) :
    ∀ (arr : List OpEntry) (acc : List (String × List String)),
      (∀ op ∈ arr, op.name = n → op.shifts = []) →
      n ∉ acc.map Prod.fst →
      n ∉ (arr.foldl
        (fun d op => if op.shifts = [] then d else dictSet d op.name op.shifts)
        acc).map Prod.fst := by
  intro arr
  induction arr with
  | nil => intro acc _ hacc; exact hacc
  | cons op arr ih =>
    intro acc hall hacc
    simp only [List.foldl_cons]
    by_cases hsh : op.shifts = []
    · rw [if_pos hsh]
      exact ih acc (fun q hq hqn => hall q (List.mem_cons_of_mem op hq) hqn) hacc
    · rw [if_neg hsh]
      refine ih (dictSet acc op.name op.shifts)
        (fun q hq hqn => hall q (List.mem_cons_of_mem op hq) hqn) ?_
      intro hmem
      rcases mem_keys_dictSet acc op.name op.shifts n hmem with h1 | h1
      · exact hacc h1
      · exact hsh (hall op (List.mem_cons_self op arr) h1.symm)

/-- C10: an operator entry whose shifts list is empty is omitted from the
roster built by `fromconfig`: its name is not recorded in `names`, the
initial weight Counter has no entry for it, and no row of any successful run
assigns it. -/
theorem empty_shifts_operator_omitted (arr : List OpEntry)
    (shiftsCfg : List (String × List String)) (n : String) (td : TimeData)
    (draws : ℕ → ℚ) (st : SchedState)
    (hex : ∃ op ∈ arr, op.name = n)
    (hall : ∀ op ∈ arr, op.name = n → op.shifts = [])
    (hrun : schedRun (fromconfig arr shiftsCfg) td draws = Except.ok st) :
    n ∉ (fromconfig arr shiftsCfg).names ∧
    (∀ p ∈ (initState (fromconfig arr shiftsCfg)).rel_weights, p.1 ≠ n) ∧
    (∀ r ∈ st.schedule, r.2.2 ≠ n) := by
  have hnames : n ∉ (fromconfig arr shiftsCfg).names :=
    foldl_dictSet_not_mem n arr [] hall (by simp)
  refine ⟨hnames, ?_, ?_⟩
  · intro p hp hpn
    have hk : p.1 ∈ (counterOf (fromconfig arr shiftsCfg).names).map Prod.fst :=
      List.mem_map_of_mem Prod.fst hp
    rw [counterOf_keys_mem] at hk
    exact hnames (hpn ▸ hk)
  · have hmem : ∀ r ∈ st.schedule, r.2.2 ∈ (fromconfig arr shiftsCfg).names := by
      refine runFold_inv _ draws
        (fun s => ∀ r ∈ s.schedule, r.2.2 ∈ (fromconfig arr shiftsCfg).names)
        ?_ (sound_shifts td) (initState _) st ?_ hrun
      · intro s slot s2 hP hs
        obtain ⟨sp, rw2, hc, hwu, hst2⟩ := schedStep_ok _ draws s slot s2 hs
        subst hst2
        intro r hr
        rcases List.mem_append.1 hr with h1 | h1
        · exact hP r h1
        · simp only [List.mem_singleton] at h1
          subst h1
          show sp ∈ (fromconfig arr shiftsCfg).names
          have hsp : sp ∈ stepPool _ s slot := choices_mem _ _ _ sp hc
          have h2 := mem_poolAfterExc _ slot sp (mem_stepPool _ s slot sp hsp)
          have h3 : sp ∈ lookupD (transform_avail (arr.foldl
              (fun d op => if op.shifts = [] then d else dictSet d op.name op.shifts)
              [])) slot.2 := h2
          exact mem_transform_avail _ slot.2 sp h3
      · intro r hr
        exact absurd hr (List.not_mem_nil r)
    intro r hr hrn
    exact hnames (hrn ▸ hmem r hr)

/-- C3 (amended): when the candidate pool of a slot is empty after exception
and no-repeat filtering, the loop body — and hence the run — fails with the
generic `IndexError` raised inside `choices` (at `cum_weights[-1]`); the
slot is not silently skipped. No `NoEligibleOperatorError` class exists in
the code and the raised error does not identify the date and shift. -/
theorem empty_pool_fails_with_index_error (ops : Operators) (draws : ℕ → ℚ)
    (st : SchedState) (slot : ℕ × String)
    (h : noRepeatFilter (poolAfterExc ops slot) st.last_person = []) :
    schedStep ops draws st slot = Except.error SchedError.indexError :=
  schedStep_empty_pool ops draws st slot h

/-- C3 counterexample: on a configuration whose only slot has an empty pool
after exception filtering, the run aborts with the bare `IndexError`, not
with a `NoEligibleOperatorError` naming the offending date and shift. -/
theorem no_eligible_operator_error_counterexample :
    sound_scheduler exC3ops exC3td exDraws = Except.error SchedError.indexError ∧
    sound_scheduler exC3ops exC3td exDraws ≠
      Except.error (SchedError.noEligibleOperator 8 "morning") := by
  have h1 : sound_scheduler exC3ops exC3td exDraws =
      Except.error SchedError.indexError := rfl
  refine ⟨h1, ?_⟩
  rw [h1]
  simp

/-- C4 (amended): a calendar shift absent from the availability mapping is
not rejected up front: the `defaultdict` lookup yields an empty candidate
pool and the step fails with the same `IndexError` as a known shift with
zero eligible operators — no distinct `UnknownShiftError` exists or is
raised. -/
theorem unknown_shift_fails_with_index_error (ops : Operators) (draws : ℕ → ℚ)
    (st : SchedState) (slot : ℕ × String)
    (h : slot.2 ∉ ops.availability.map Prod.fst) :
    lookupD ops.availability slot.2 = [] ∧
    schedStep ops draws st slot = Except.error SchedError.indexError := by
  have h1 : lookupD ops.availability slot.2 = [] := lookupD_eq_nil _ _ h
  have h2 : poolAfterExc ops slot = [] := poolAfterExc_of_avail_nil ops slot h1
  refine ⟨h1, ?_⟩
  apply schedStep_empty_pool
  show noRepeatFilter (poolAfterExc ops slot) st.last_person = []
  rw [h2]
  rfl

/-- C4 counterexample: on a calendar whose configured shift is absent from
the availability mapping, the run aborts with the same bare `IndexError` as
an empty pool — not with an `UnknownShiftError`, and not as a distinct
condition. -/
theorem unknown_shift_error_counterexample :
    sound_scheduler exC4ops exC4td exDraws = Except.error SchedError.indexError ∧
    sound_scheduler exC4ops exC4td exDraws ≠
      Except.error (SchedError.unknownShift "evening") := by
  have h1 : sound_scheduler exC4ops exC4td exDraws =
      Except.error SchedError.indexError := rfl
  refine ⟨h1, ?_⟩
  rw [h1]
  simp

/-- Witness for C1 at a concrete configuration: one step on the two-operator
example roster from the initial state. -/
theorem weight_update_after_draw_witness :
    ∃ m,
      listMin (exOps.names.map (fun k =>
        if k = exSt1.last_person then cntGet (initState exOps).rel_weights k
        else cntGet (initState exOps).rel_weights k * 10)) = some m ∧
      ∀ n ∈ exOps.names,
        cntGet exSt1.rel_weights n =
          (if n = exSt1.last_person then cntGet (initState exOps).rel_weights n
           else cntGet (initState exOps).rel_weights n * 10) / m :=
  weight_update_after_draw exOps exDraws (initState exOps) exSt1 (8, "morning")
    (by decide) (fun a => Iff.rfl) (by decide) rfl

/-- Witness for C2 at a concrete configuration: the two-Monday example run. -/
theorem rel_weights_positive_min_one_witness :
    (∀ p ∈ (initState exOps).rel_weights, p.2 = 1) ∧
    (∀ d ∈ exSt.diagnostics, ∀ p ∈ d.rel_weights, 1 ≤ p.2) ∧
    (∀ p ∈ exSt.rel_weights, 1 ≤ p.2) ∧
    (exSt.schedule ≠ [] → listMin (exSt.rel_weights.map Prod.snd) = some 1) ∧
    (∀ d ∈ exSt.diagnostics.drop 1,
      listMin (d.rel_weights.map Prod.snd) = some 1) :=
  rel_weights_positive_min_one exOps exTd exDraws exSt (by decide) rfl

/-- Witness for the amended C3 at a concrete configuration: the slot whose
pool is emptied by an exception fails with `IndexError`. -/
theorem empty_pool_fails_with_index_error_witness :
    schedStep exC3ops exDraws (initState exC3ops) (8, "morning") =
      Except.error SchedError.indexError :=
  empty_pool_fails_with_index_error exC3ops exDraws (initState exC3ops)
    (8, "morning") (by decide)

/-- Witness for the amended C4 at a concrete configuration: the calendar
shift "evening" absent from availability fails with `IndexError`. -/
theorem unknown_shift_fails_with_index_error_witness :
    lookupD exC4ops.availability "evening" = [] ∧
    schedStep exC4ops exDraws (initState exC4ops) (8, "evening") =
      Except.error SchedError.indexError :=
  unknown_shift_fails_with_index_error exC4ops exDraws (initState exC4ops)
    (8, "evening") (by decide)

/-- Witness for C5 at a concrete configuration: the two-Monday example run
(its second row indeed differs from its first). -/
theorem no_repeat_rule_witness :
    (∀ pr ∈ adjPairs exSt.schedule,
      2 ≤ (pyset (poolAfterExc exOps (pr.2.1, pr.2.2.1))).length →
        pr.2.2.2 ≠ pr.1.2.2) ∧
    (∀ (pop : List String) (last : String), pop.length = 1 →
      noRepeatFilter pop last = pop ∧ noRepeatFilter pop last ≠ []) :=
  no_repeat_rule exOps exTd exDraws exSt rfl

/-- Witness for C6 at a concrete configuration: the run whose only slot has
a recorded exception selects "bob", not the excepted "alice". -/
theorem exceptions_enforced_witness :
    (8, "morning", "bob") ∈ exESt.schedule ∧
    excGet exEOps.exceptions (8, "morning") = some ["alice"] ∧
    "bob" ∉ (["alice"] : List String) :=
  ⟨by decide, by decide,
   exceptions_enforced exEOps exETd exDraws exESt rfl (8, "morning", "bob")
     (by decide) ["alice"] (by decide)⟩

/-- Witness for C7 at a concrete configuration: the two-Monday example run
emits exactly its two calendar slots, in order. -/
theorem one_row_per_slot_witness :
    exSt.schedule.map (fun r => (r.1, r.2.1)) = sound_shifts exTd ∧
    exSt.schedule.length = (sound_shifts exTd).length :=
  one_row_per_slot exOps exTd exDraws (exSt.counts, exSt.diagnostics)
    exSt.schedule rfl

/-- Witness for C8 at a concrete configuration: the inverted range 9..8. -/
theorem inverted_range_zero_rows_witness :
    sound_shifts exInvTd = [] ∧
    sound_scheduler exC4ops exInvTd exDraws = Except.ok (([], []), []) :=
  inverted_range_zero_rows exC4ops exInvTd exDraws (by decide)

/-- Witness for C9 at a concrete configuration: two pointwise-equal draw
oracles give the same result. -/
theorem reproducible_given_draws_witness :
    sound_scheduler exOps exTd exDraws = sound_scheduler exOps exTd exDraws2 :=
  reproducible_given_draws exOps exTd exDraws exDraws2
    (fun n => (zero_mul ((n : ℚ))).symm)

/-- Witness for C10 at a concrete configuration: the operator "carol" with
an empty shifts list is absent from names, weights, and the schedule. -/
theorem empty_shifts_operator_omitted_witness :
    "carol" ∉ (fromconfig exArr exCfgShifts).names ∧
    (∀ p ∈ (initState (fromconfig exArr exCfgShifts)).rel_weights,
      p.1 ≠ "carol") ∧
    (∀ r ∈ exSt.schedule, r.2.2 ≠ "carol") :=
  empty_shifts_operator_omitted exArr exCfgShifts "carol" exTd exDraws exSt
    (by decide) (by decide) rfl
